import Mathlib

/-!
Verification of the Match Point talent-search repository.

Text is modelled as `List Char`.  The evidence-highlighting document
renderer (Sanitizer, Phrase Normalizer, Annotator, Artifact Exporter) is
absent from the repository sources; following the specification, those
components are modelled from the spec's words and marked as such in their
doc comments.  The HTTP error handling (`searchCandidates`,
`getCandidateResume`), the search form submit handler (`handleSubmit`)
and the contact-dialog download guard are translated from the TypeScript
sources.
-/

namespace Matchpoint

/-- Modelled from the spec: the Sanitizer's replacement for one character.
`&`, `<`, `>` become their named character entities; every other
character is kept as is.  (The Sanitizer itself is missing from the
sources; only the spec describes it.) -/
def escChar (c : Char) : List Char :=
  if c = '&' then '&' :: 'a' :: 'm' :: 'p' :: ';' :: []
  else if c = '<' then '&' :: 'l' :: 't' :: ';' :: []
  else if c = '>' then '&' :: 'g' :: 't' :: ';' :: []
  else [c]

/-- Modelled from the spec: the Sanitizer.  A single left-to-right pass
replacing every `&`, `<`, `>` by its named entity; replacing ampersands
first means an already-escaped `&` is never produced from `<` or `>`,
which the per-character map captures. -/
def sanitize : List Char → List Char
  | [] => []
  | c :: rest => escChar c ++ sanitize rest

/-- Modelled from the spec: entity unescaping, the inverse direction used
to state the Sanitizer round-trip property.  Named entities `&amp;`,
`&lt;`, `&gt;` are decoded in one left-to-right pass. -/
def unescape : List Char → List Char
  | '&' :: 'a' :: 'm' :: 'p' :: ';' :: rest => '&' :: unescape rest
  | '&' :: 'l' :: 't' :: ';' :: rest => '<' :: unescape rest
  | '&' :: 'g' :: 't' :: ';' :: rest => '>' :: unescape rest
  | c :: rest => c :: unescape rest
  | [] => []

theorem unescape_cons_ne (c : Char) (l : List Char) (h : c ≠ '&') :
    unescape (c :: l) = c :: unescape l := by
  rw [unescape.eq_def]
  split
  · simp_all
  · simp_all
  · simp_all
  · rename_i c' rest' _ _ _ heq
    rw [List.cons.injEq] at heq
    rw [heq.1, heq.2]
  · simp_all

theorem mem_escChar (a c : Char) (h : a ∈ escChar c) :
    a = c ∨ a ∈ ('&' :: 'a' :: 'm' :: 'p' :: ';' :: 'l' :: 't' :: 'g' :: []) := by
  by_cases h1 : c = '&'
  · subst h1; simp [escChar] at h; rcases h with h | h | h | h | h <;> simp [h]
  · by_cases h2 : c = '<'
    · subst h2; simp [escChar, h1] at h; rcases h with h | h | h | h <;> simp [h]
    · by_cases h3 : c = '>'
      · subst h3; simp [escChar, h1, h2] at h; rcases h with h | h | h | h <;> simp [h]
      · simp [escChar, h1, h2, h3] at h; simp [h]

theorem lt_not_mem_escChar (c : Char) : '<' ∉ escChar c := by
  intro hmem
  rcases mem_escChar '<' c hmem with h | h
  · subst h; simp [escChar] at hmem
  · simp at h

theorem gt_not_mem_escChar (c : Char) : '>' ∉ escChar c := by
  intro hmem
  rcases mem_escChar '>' c hmem with h | h
  · subst h; simp [escChar] at hmem
  · simp at h

theorem lt_not_mem_sanitize (l : List Char) : '<' ∉ sanitize l := by
  induction l with
  | nil => simp [sanitize]
  | cons c rest ih =>
    simp only [sanitize, List.mem_append]
    rintro (h | h)
    · exact lt_not_mem_escChar c h
    · exact ih h

theorem gt_not_mem_sanitize (l : List Char) : '>' ∉ sanitize l := by
  induction l with
  | nil => simp [sanitize]
  | cons c rest ih =>
    simp only [sanitize, List.mem_append]
    rintro (h | h)
    · exact gt_not_mem_escChar c h
    · exact ih h

theorem unescape_escChar (c : Char) (l : List Char) :
    unescape (escChar c ++ l) = c :: unescape l := by
  by_cases h1 : c = '&'
  · subst h1; simp [escChar, unescape]
  · by_cases h2 : c = '<'
    · subst h2; simp [escChar, h1, unescape]
    · by_cases h3 : c = '>'
      · subst h3; simp [escChar, h1, h2, unescape]
      · simp only [escChar, h1, h2, h3, if_false, List.cons_append, List.nil_append]
        exact unescape_cons_ne c l h1

theorem unescape_sanitize (l : List Char) : unescape (sanitize l) = l := by
  induction l with
  | nil => rfl
  | cons c rest ih => rw [sanitize, unescape_escChar, ih]

/-- C2: the Sanitizer's output contains no raw `<` or `>`, and entity
unescaping of the Sanitizer's output restores the input text exactly. -/
theorem sanitize_no_angle_and_roundtrip (l : List Char) :
    '<' ∉ sanitize l ∧ '>' ∉ sanitize l ∧ unescape (sanitize l) = l :=
  ⟨lt_not_mem_sanitize l, gt_not_mem_sanitize l, unescape_sanitize l⟩

theorem sanitize_ne_nil (c : Char) (l : List Char) : sanitize (c :: l) ≠ [] := by
  have h : escChar c ≠ [] := by
    by_cases h1 : c = '&'
    · simp [escChar, h1]
    · by_cases h2 : c = '<'
      · simp [escChar, h1, h2]
      · by_cases h3 : c = '>'
        · simp [escChar, h1, h2, h3]
        · simp [escChar, h1, h2, h3]
  simp only [sanitize]
  intro hcontra
  exact h (List.append_eq_nil.mp hcontra).1

/-- Modelled from the spec: trimming of leading and trailing whitespace,
used by the Phrase Normalizer (missing from the sources). -/
def trimChars (l : List Char) : List Char :=
  ((l.dropWhile Char.isWhitespace).reverse.dropWhile Char.isWhitespace).reverse

/-- Modelled from the spec: the Phrase Normalizer (missing from the
sources).  Each phrase is trimmed and phrases that become empty are
dropped; the relative order of survivors is preserved. -/
def normalizePhrases (ps : List (List Char)) : List (List Char) :=
  (ps.map trimChars).filter (fun p => !p.isEmpty)

/-- ASCII case folding used to model the Annotator's case-insensitive
matching: the key of a character, with upper-case latin letters mapped
onto their lower-case counterparts. -/
def foldKey (c : Char) : Nat :=
  if 65 ≤ c.toNat ∧ c.toNat ≤ 90 then c.toNat + 32 else c.toNat

/-- Case-insensitive "the pattern occurs at the front of `l`". -/
def ciP (pat l : List Char) : Bool :=
  decide (pat.length ≤ l.length) && ((l.take pat.length).map foldKey == pat.map foldKey)

/-- Modelled from the spec: the opening highlight-marker token. -/
def oTok : List Char := '<' :: 'm' :: 'a' :: 'r' :: 'k' :: '>' :: []

/-- Modelled from the spec: the closing highlight-marker token. -/
def cTok : List Char := '<' :: '/' :: 'm' :: 'a' :: 'r' :: 'k' :: '>' :: []

/-- Fuel-driven scan of the body for one phrase: every case-insensitive,
leftmost, non-overlapping occurrence of `pat` is wrapped in the highlight
markers, keeping the matched text's original casing.  The fuel only makes
the recursion structural; it never runs out when it starts at the body's
length. -/
def annOneF (pat : List Char) : Nat → List Char → List Char
  | _, [] => []
  | 0, l => l
  | fuel + 1, c :: rest =>
    if pat ≠ [] ∧ ciP pat (c :: rest) = true then
      oTok ++ (c :: rest).take pat.length ++ cTok ++ annOneF pat fuel ((c :: rest).drop pat.length)
    else c :: annOneF pat fuel rest

/-- Modelled from the spec: annotation of the body with a single
(already sanitized) phrase (§4.3 step 3). -/
def annOne (pat l : List Char) : List Char := annOneF pat l.length l

theorem annOneF_stable (pat : List Char) :
    ∀ f1 f2 l, l.length ≤ f1 → l.length ≤ f2 → annOneF pat f1 l = annOneF pat f2 l := by
  intro f1
  induction f1 with
  | zero =>
    intro f2 l h1 _
    have : l = [] := List.length_eq_zero.mp (Nat.le_zero.mp h1)
    subst this
    cases f2 <;> rfl
  | succ f ih =>
    intro f2 l h1 h2
    match l with
    | [] => cases f2 <;> rfl
    | c :: rest =>
      have hf2 : 0 < f2 := Nat.lt_of_lt_of_le (Nat.succ_pos _) h2
      obtain ⟨f2', rfl⟩ : ∃ k, f2 = k + 1 := ⟨f2 - 1, by omega⟩
      have h1' : rest.length + 1 ≤ f + 1 := by simpa using h1
      have h2' : rest.length + 1 ≤ f2' + 1 := by simpa using h2
      by_cases hc : pat ≠ [] ∧ ciP pat (c :: rest) = true
      · have hpat : 0 < pat.length := List.length_pos.mpr hc.1
        have hdrop : ((c :: rest).drop pat.length).length ≤ rest.length := by
          simp only [List.length_drop, List.length_cons]
          omega
        simp only [annOneF, if_pos hc]
        rw [ih f2' ((c :: rest).drop pat.length) (Nat.le_trans hdrop (by omega))
          (Nat.le_trans hdrop (by omega))]
      · simp only [annOneF, if_neg hc]
        rw [ih f2' rest (by simpa using h1) (by simpa using h2)]

theorem annOne_nil (pat : List Char) : annOne pat [] = [] := rfl

theorem annOne_cons_pos (pat : List Char) (c : Char) (rest : List Char)
    (h : pat ≠ []) (hm : ciP pat (c :: rest) = true) :
    annOne pat (c :: rest) =
      oTok ++ (c :: rest).take pat.length ++ cTok ++ annOne pat ((c :: rest).drop pat.length) := by
  have hpat : 0 < pat.length := List.length_pos.mpr h
  have hdrop : ((c :: rest).drop pat.length).length ≤ rest.length := by
    simp only [List.length_drop, List.length_cons]
    omega
  show annOneF pat (rest.length + 1) (c :: rest) = _
  simp only [annOneF, if_pos (And.intro h hm)]
  rw [annOneF_stable pat rest.length ((c :: rest).drop pat.length).length
    ((c :: rest).drop pat.length) hdrop (Nat.le_refl _)]
  rfl

theorem annOne_cons_neg (pat : List Char) (c : Char) (rest : List Char)
    (h : ¬ (pat ≠ [] ∧ ciP pat (c :: rest) = true)) :
    annOne pat (c :: rest) = c :: annOne pat rest := by
  show annOneF pat (rest.length + 1) (c :: rest) = _
  simp only [annOneF, if_neg h]
  rfl

/-- Modelled from the spec: the Annotator (§4.3).  Each phrase is first
sanitized, then matched literally (the metacharacter escaping of the
reference system makes the pattern-language match a literal match) and
case-insensitively against the entire current body; the body used for the
next phrase is the body after this phrase's markers were inserted. -/
def annotate (body : List Char) (phrases : List (List Char)) : List Char :=
  phrases.foldl (fun b p => annOne (sanitize p) b) body

/-- Modelled from the spec: the full render pipeline for one document
body — sanitize the raw text, normalize the phrases, annotate. -/
def annotateDocument (raw : List Char) (phrases : List (List Char)) : List Char :=
  annotate (sanitize raw) (normalizePhrases phrases)

/-- Modelled from the spec: stripping of all highlight markers (the
invariant of §3 deletes every occurrence of the two marker tokens and no
other character, in one left-to-right pass). -/
def stripMarkers : List Char → List Char
  | '<' :: 'm' :: 'a' :: 'r' :: 'k' :: '>' :: rest => stripMarkers rest
  | '<' :: '/' :: 'm' :: 'a' :: 'r' :: 'k' :: '>' :: rest => stripMarkers rest
  | c :: rest => c :: stripMarkers rest
  | [] => []

/-- Number of opening highlight markers in a text. -/
def countOpen : List Char → Nat
  | '<' :: 'm' :: 'a' :: 'r' :: 'k' :: '>' :: rest => countOpen rest + 1
  | _ :: rest => countOpen rest
  | [] => 0

/-- C6: with an empty evidence-phrase list the Annotator returns the
SanitizedText unchanged — no markers are inserted. -/
theorem annotate_empty_phrases (raw : List Char) :
    annotateDocument raw [] = sanitize raw := rfl

/-- C5: a phrase made of pattern-language metacharacters is matched
literally: with body `"Scored 99.5% on assessment"` and phrase `"99.5%"`
exactly the one literal occurrence is wrapped in a highlight marker. -/
theorem annotate_metachar_literal :
    annotateDocument "Scored 99.5% on assessment".data ["99.5%".data]
        = "Scored <mark>99.5%</mark> on assessment".data ∧
      countOpen (annotateDocument "Scored 99.5% on assessment".data ["99.5%".data]) = 1 := by
  constructor
  · decide
  · decide

theorem ciP_iff (pat l : List Char) :
    ciP pat l = true ↔
      pat.length ≤ l.length ∧ (l.take pat.length).map foldKey = pat.map foldKey := by
  simp [ciP]

theorem ciP_append (pat xs ys : List Char) (h : ciP pat xs = true) :
    ciP pat (xs ++ ys) = true := by
  obtain ⟨hlen, hmap⟩ := (ciP_iff pat xs).mp h
  refine (ciP_iff pat (xs ++ ys)).mpr ⟨?_, ?_⟩
  · simp only [List.length_append]
    omega
  · rw [List.take_append_of_le_length hlen, hmap]

theorem ciP_of_append (pat xs ys : List Char) (hlen : pat.length ≤ xs.length)
    (h : ciP pat (xs ++ ys) = true) : ciP pat xs = true := by
  obtain ⟨_, hmap⟩ := (ciP_iff pat (xs ++ ys)).mp h
  refine (ciP_iff pat xs).mpr ⟨hlen, ?_⟩
  rw [← List.take_append_of_le_length hlen]
  exact hmap

theorem foldKey_eq_sixty (c : Char) (h : foldKey c = 60) : c = '<' := by
  unfold foldKey at h
  split at h
  · omega
  · have h2 : c.toNat = ('<').toNat := h
    exact Char.ext ( UInt32.toNat.inj h2)

theorem foldKey_eq_sixtytwo (c : Char) (h : foldKey c = 62) : c = '>' := by
  unfold foldKey at h
  split at h
  · omega
  · have h2 : c.toNat = ('>').toNat := h
    exact Char.ext ( UInt32.toNat.inj h2)

theorem sixty_not_mem_map (l : List Char) (h : '<' ∉ l) : (60 : Nat) ∉ l.map foldKey := by
  intro hmem
  obtain ⟨c, hc, hfk⟩ := List.mem_map.mp hmem
  exact h (foldKey_eq_sixty c hfk ▸ hc)

theorem sixtytwo_not_mem_map (l : List Char) (h : '>' ∉ l) : (62 : Nat) ∉ l.map foldKey := by
  intro hmem
  obtain ⟨c, hc, hfk⟩ := List.mem_map.mp hmem
  exact h (foldKey_eq_sixtytwo c hfk ▸ hc)

/-- No case-insensitive occurrence of the pattern starts inside `xs` and
runs past its end into `ys` (the split condition of the scan lemma). -/
def NoSpan (pat xs ys : List Char) : Prop :=
  ∀ s t, xs = s ++ t → t ≠ [] → ciP pat (t ++ ys) = true → pat.length ≤ t.length

theorem noSpan_tail (pat : List Char) (c : Char) (rest ys : List Char)
    (h : NoSpan pat (c :: rest) ys) : NoSpan pat rest ys := by
  intro s t heq htne hci
  exact h (c :: s) t (by simp [heq]) htne hci

theorem noSpan_drop (pat xs ys : List Char) (k : Nat) (h : NoSpan pat xs ys) :
    NoSpan pat (xs.drop k) ys := by
  intro s t heq htne hci
  refine h (xs.take k ++ s) t ?_ htne hci
  rw [List.append_assoc, ← heq, List.take_append_drop]

theorem annOne_append (pat : List Char) (hp : pat ≠ []) :
    ∀ n xs ys, xs.length ≤ n → NoSpan pat xs ys →
      annOne pat (xs ++ ys) = annOne pat xs ++ annOne pat ys := by
  intro n
  induction n with
  | zero =>
    intro xs ys h1 _
    have : xs = [] := List.length_eq_zero.mp (Nat.le_zero.mp h1)
    subst this
    simp [annOne_nil]
  | succ n ih =>
    intro xs ys h1 hns
    match xs with
    | [] => simp [annOne_nil]
    | c :: rest =>
      have hpat : 0 < pat.length := List.length_pos.mpr hp
      have hcons : (c :: rest) ++ ys = c :: (rest ++ ys) := rfl
      by_cases hm : ciP pat ((c :: rest) ++ ys) = true
      · have hlen : pat.length ≤ (c :: rest).length :=
          hns [] (c :: rest) rfl (by simp) hm
        have hmx : ciP pat (c :: rest) = true := ciP_of_append pat (c :: rest) ys hlen hm
        rw [hcons] at hm
        rw [hcons, annOne_cons_pos pat c (rest ++ ys) hp hm,
          annOne_cons_pos pat c rest hp hmx]
        have htake : (c :: (rest ++ ys)).take pat.length = (c :: rest).take pat.length := by
          rw [← hcons]
          exact List.take_append_of_le_length hlen
        have hdropeq : (c :: (rest ++ ys)).drop pat.length = (c :: rest).drop pat.length ++ ys := by
          rw [← hcons]
          exact List.drop_append_of_le_length hlen
        rw [htake, hdropeq]
        rw [ih ((c :: rest).drop pat.length) ys
          (by simp only [List.length_drop, List.length_cons] at *; omega)
          (noSpan_drop pat (c :: rest) ys pat.length hns)]
        simp [List.append_assoc]
      · have hmx : ciP pat (c :: rest) ≠ true := fun h => hm (ciP_append pat (c :: rest) ys h)
        rw [hcons, annOne_cons_neg pat c (rest ++ ys) (fun h => hm h.2),
          annOne_cons_neg pat c rest (fun h => hmx h.2)]
        rw [ih rest ys (by simpa using h1) (noSpan_tail pat c rest ys hns)]
        rfl

theorem gt_mem_suffix_tok (tok t : List Char) (htok : tok = oTok ∨ tok = cTok)
    (h : t <:+ tok) (hne : t ≠ []) : '>' ∈ t := by
  rcases htok with rfl | rfl
  · have hmem : t ∈ oTok.tails := (List.mem_tails t oTok).mpr h
    simp only [oTok, List.tails, List.mem_cons, List.mem_nil_iff, or_false] at hmem
    rcases hmem with rfl | rfl | rfl | rfl | rfl | rfl | rfl <;>
      first | decide | exact absurd rfl hne
  · have hmem : t ∈ cTok.tails := (List.mem_tails t cTok).mpr h
    simp only [cTok, List.tails, List.mem_cons, List.mem_nil_iff, or_false] at hmem
    rcases hmem with rfl | rfl | rfl | rfl | rfl | rfl | rfl | rfl <;>
      first | decide | exact absurd rfl hne

theorem noSpan_token (pat tok ys : List Char) (htok : tok = oTok ∨ tok = cTok)
    (hgt : (62 : Nat) ∉ pat.map foldKey) : NoSpan pat tok ys := by
  intro s t heq htne hci
  by_contra hlen
  push_neg at hlen
  have hsuf : t <:+ tok := ⟨s, heq.symm⟩
  have hgtt : '>' ∈ t := gt_mem_suffix_tok tok t htok hsuf htne
  obtain ⟨_, hmap⟩ := (ciP_iff pat (t ++ ys)).mp hci
  have hmem : '>' ∈ (t ++ ys).take pat.length := by
    rw [List.take_append_eq_append_take, List.take_of_length_le (Nat.le_of_lt hlen)]
    exact List.mem_append_left _ hgtt
  have h62 : (62 : Nat) ∈ ((t ++ ys).take pat.length).map foldKey := by
    have : foldKey '>' = 62 := by decide
    exact this ▸ List.mem_map_of_mem foldKey hmem
  rw [hmap] at h62
  exact hgt h62

theorem noSpan_before_tok (pat c tok b' : List Char) (htok : tok = oTok ∨ tok = cTok)
    (hlt : (60 : Nat) ∉ pat.map foldKey) : NoSpan pat c (tok ++ b') := by
  intro s t _ _ hci
  by_contra hlen
  push_neg at hlen
  obtain ⟨_, hmap⟩ := (ciP_iff pat (t ++ (tok ++ b'))).mp hci
  have hhead : ∃ z, tok ++ b' = '<' :: z := by
    rcases htok with rfl | rfl
    · exact ⟨'m' :: 'a' :: 'r' :: 'k' :: '>' :: b', rfl⟩
    · exact ⟨'/' :: 'm' :: 'a' :: 'r' :: 'k' :: '>' :: b', rfl⟩
  obtain ⟨z, hz⟩ := hhead
  have hmem : '<' ∈ (t ++ (tok ++ b')).take pat.length := by
    rw [List.take_append_eq_append_take, List.take_of_length_le (Nat.le_of_lt hlen), hz]
    obtain ⟨k, hk⟩ : ∃ k, pat.length - t.length = k + 1 := ⟨pat.length - t.length - 1, by omega⟩
    rw [hk, List.take_succ_cons]
    exact List.mem_append_right _ (List.mem_cons_self _ _)
  have h60 : (60 : Nat) ∈ ((t ++ (tok ++ b')).take pat.length).map foldKey := by
    have : foldKey '<' = 60 := by decide
    exact this ▸ List.mem_map_of_mem foldKey hmem
  rw [hmap] at h60
  exact hlt h60

theorem ciP_false_in_token (pat tok : List Char)
    (hinf : ¬ pat.map foldKey <:+: tok.map foldKey) :
    ∀ t, t <:+ tok → ciP pat t = false := by
  intro t hsuf
  by_contra h
  rw [Bool.not_eq_false] at h
  obtain ⟨hlen, hmap⟩ := (ciP_iff pat t).mp h
  apply hinf
  obtain ⟨s0, hs0⟩ := hsuf
  obtain ⟨r1, hr1⟩ : ∃ r1, t.take pat.length ++ r1 = t := ⟨t.drop pat.length, List.take_append_drop _ _⟩
  refine ⟨s0.map foldKey, r1.map foldKey, ?_⟩
  rw [← hmap, ← List.map_append, ← List.map_append, List.append_assoc, hr1, hs0]

theorem annOne_no_match (pat : List Char) :
    ∀ l, (∀ t, t <:+ l → ciP pat t = false) → annOne pat l = l := by
  intro l
  induction l with
  | nil => intro _; exact annOne_nil pat
  | cons c rest ih =>
    intro h
    rw [annOne_cons_neg pat c rest (fun hc => by
      have := h (c :: rest) (List.suffix_refl _)
      rw [hc.2] at this
      exact Bool.true_eq_false.mp this)]
    rw [ih (fun t ht => h t (ht.trans (List.suffix_cons c rest)))]

theorem annOne_token (pat tok ys : List Char) (hp : pat ≠ [])
    (htok : tok = oTok ∨ tok = cTok)
    (hgt : (62 : Nat) ∉ pat.map foldKey)
    (hinf : ¬ pat.map foldKey <:+: tok.map foldKey) :
    annOne pat (tok ++ ys) = tok ++ annOne pat ys := by
  rw [annOne_append pat hp tok.length tok ys (Nat.le_refl _) (noSpan_token pat tok ys htok hgt),
    annOne_no_match pat tok (ciP_false_in_token pat tok hinf)]

/-- Well-formed annotated text: an interleaving of angle-bracket-free
content pieces and whole marker tokens, whose content pieces concatenate
to the second argument. -/
inductive Wf : List Char → List Char → Prop
  | base (c : List Char) (h : '<' ∉ c ∧ '>' ∉ c) : Wf c c
  | step (c tok b s : List Char) (h : '<' ∉ c ∧ '>' ∉ c)
      (ht : tok = oTok ∨ tok = cTok) (hb : Wf b s) : Wf (c ++ (tok ++ b)) (c ++ s)

theorem wf_cons (a : Char) (h1 : a ≠ '<') (h2 : a ≠ '>') (b s : List Char)
    (hw : Wf b s) : Wf (a :: b) (a :: s) := by
  induction hw with
  | base c h =>
    exact Wf.base (a :: c) ⟨by simp [List.mem_cons, h1.symm, h.1], by simp [List.mem_cons, h2.symm, h.2]⟩
  | step c tok b' s' h ht hb _ =>
    have := Wf.step (a :: c) tok b' s'
      ⟨by simp [List.mem_cons, h1.symm, h.1], by simp [List.mem_cons, h2.symm, h.2]⟩ ht hb
    simpa using this

theorem wf_prepend (c : List Char) (h1 : '<' ∉ c) (h2 : '>' ∉ c) (b s : List Char)
    (hw : Wf b s) : Wf (c ++ b) (c ++ s) := by
  induction c with
  | nil => simpa using hw
  | cons a rest ih =>
    have ha1 : a ≠ '<' := fun h => h1 (h ▸ List.mem_cons_self a rest)
    have ha2 : a ≠ '>' := fun h => h2 (h ▸ List.mem_cons_self a rest)
    have hr1 : '<' ∉ rest := fun h => h1 (List.mem_cons_of_mem a h)
    have hr2 : '>' ∉ rest := fun h => h2 (List.mem_cons_of_mem a h)
    simpa using wf_cons a ha1 ha2 (rest ++ b) (rest ++ s) (ih hr1 hr2)

theorem wf_glue (tok : List Char) (ht : tok = oTok ∨ tok = cTok)
    (x u : List Char) (hx : Wf x u) (y v : List Char) (hy : Wf y v) :
    Wf (x ++ (tok ++ y)) (u ++ v) := by
  induction hx with
  | base c h => exact Wf.step c tok y v h ht hy
  | step c tok0 b s h ht0 _ ih =>
    have := Wf.step c tok0 (b ++ (tok ++ y)) (s ++ v) h ht0 ih
    simpa [List.append_assoc] using this

theorem stripMarkers_cons_ne (a : Char) (l : List Char) (h : a ≠ '<') :
    stripMarkers (a :: l) = a :: stripMarkers l := by
  rw [stripMarkers.eq_def]
  split
  · simp_all
  · simp_all
  · rename_i c' rest' _ _ _ heq
    rw [List.cons.injEq] at heq
    rw [heq.1, heq.2]
  · simp_all

theorem stripMarkers_append_clean (c : List Char) (h : '<' ∉ c) (l : List Char) :
    stripMarkers (c ++ l) = c ++ stripMarkers l := by
  induction c with
  | nil => rfl
  | cons a rest ih =>
    have ha : a ≠ '<' := fun hcontra => h (hcontra ▸ List.mem_cons_self a rest)
    have hr : '<' ∉ rest := fun hcontra => h (List.mem_cons_of_mem a hcontra)
    rw [List.cons_append, stripMarkers_cons_ne a (rest ++ l) ha, ih hr]
    rfl

theorem stripMarkers_oTok (l : List Char) : stripMarkers (oTok ++ l) = stripMarkers l := rfl

theorem stripMarkers_cTok (l : List Char) : stripMarkers (cTok ++ l) = stripMarkers l := rfl

theorem wf_strip (b s : List Char) (h : Wf b s) : stripMarkers b = s := by
  induction h with
  | base c hc =>
    have := stripMarkers_append_clean c hc.1 []
    rw [show stripMarkers ([] : List Char) = [] from rfl, List.append_nil] at this
    exact this
  | step c tok b' s' hc ht _ ih =>
    rw [stripMarkers_append_clean c hc.1]
    rcases ht with rfl | rfl
    · rw [stripMarkers_oTok, ih]
    · rw [stripMarkers_cTok, ih]

theorem annOne_wf_content (pat : List Char) (hp : pat ≠ []) :
    ∀ n c, c.length ≤ n → '<' ∉ c → '>' ∉ c → Wf (annOne pat c) c := by
  intro n
  induction n with
  | zero =>
    intro c h1 _ _
    have : c = [] := List.length_eq_zero.mp (Nat.le_zero.mp h1)
    subst this
    exact annOne_nil pat ▸ Wf.base [] (by simp)
  | succ n ih =>
    intro c h1 hlt hgt
    match c with
    | [] => exact annOne_nil pat ▸ Wf.base [] (by simp)
    | a :: rest =>
      have hpat : 0 < pat.length := List.length_pos.mpr hp
      by_cases hm : ciP pat (a :: rest) = true
      · rw [annOne_cons_pos pat a rest hp hm]
        have hdlen : ((a :: rest).drop pat.length).length ≤ n := by
          simp only [List.length_drop, List.length_cons] at *
          omega
        have hdlt : '<' ∉ (a :: rest).drop pat.length :=
          fun h => hlt (List.drop_subset _ _ h)
        have hdgt : '>' ∉ (a :: rest).drop pat.length :=
          fun h => hgt (List.drop_subset _ _ h)
        have htlt : '<' ∉ (a :: rest).take pat.length :=
          fun h => hlt (List.take_subset _ _ h)
        have htgt : '>' ∉ (a :: rest).take pat.length :=
          fun h => hgt (List.take_subset _ _ h)
        have hwd : Wf (annOne pat ((a :: rest).drop pat.length)) ((a :: rest).drop pat.length) :=
          ih ((a :: rest).drop pat.length) hdlen hdlt hdgt
        have h1' : Wf (cTok ++ annOne pat ((a :: rest).drop pat.length))
            ((a :: rest).drop pat.length) := by
          have := Wf.step [] cTok (annOne pat ((a :: rest).drop pat.length))
            ((a :: rest).drop pat.length) (by simp) (Or.inr rfl) hwd
          simpa using this
        have h2' : Wf ((a :: rest).take pat.length ++
              (cTok ++ annOne pat ((a :: rest).drop pat.length)))
            ((a :: rest).take pat.length ++ (a :: rest).drop pat.length) :=
          wf_prepend _ htlt htgt _ _ h1'
        have h3' : Wf (oTok ++ ((a :: rest).take pat.length ++
              (cTok ++ annOne pat ((a :: rest).drop pat.length))))
            ((a :: rest).take pat.length ++ (a :: rest).drop pat.length) := by
          have := Wf.step [] oTok _ _ (by simp) (Or.inl rfl) h2'
          simpa using this
        rw [List.take_append_drop] at h3'
        simpa [List.append_assoc] using h3'
      · rw [annOne_cons_neg pat a rest (fun h => hm h.2)]
        have ha1 : a ≠ '<' := fun h => hlt (h ▸ List.mem_cons_self a rest)
        have ha2 : a ≠ '>' := fun h => hgt (h ▸ List.mem_cons_self a rest)
        have hr1 : '<' ∉ rest := fun h => hlt (List.mem_cons_of_mem a h)
        have hr2 : '>' ∉ rest := fun h => hgt (List.mem_cons_of_mem a h)
        exact wf_cons a ha1 ha2 _ _ (ih rest (by simpa using h1) hr1 hr2)

theorem annOne_wf (pat : List Char) (hp : pat ≠ [])
    (hlt : (60 : Nat) ∉ pat.map foldKey) (hgt : (62 : Nat) ∉ pat.map foldKey)
    (ho : ¬ pat.map foldKey <:+: oTok.map foldKey)
    (hcl : ¬ pat.map foldKey <:+: cTok.map foldKey)
    (b s : List Char) (h : Wf b s) : Wf (annOne pat b) s := by
  induction h with
  | base c hc => exact annOne_wf_content pat hp c.length c (Nat.le_refl _) hc.1 hc.2
  | step c tok b' s' hc ht _ ih =>
    have hinf : ¬ pat.map foldKey <:+: tok.map foldKey := by
      rcases ht with rfl | rfl
      · exact ho
      · exact hcl
    have hsplit1 : annOne pat (c ++ (tok ++ b')) =
        annOne pat c ++ annOne pat (tok ++ b') :=
      annOne_append pat hp c.length c (tok ++ b') (Nat.le_refl _)
        (noSpan_before_tok pat c tok b' ht hlt)
    have hsplit2 : annOne pat (tok ++ b') = tok ++ annOne pat b' :=
      annOne_token pat tok b' hp ht hgt hinf
    rw [hsplit1, hsplit2]
    exact wf_glue tok ht _ _ (annOne_wf_content pat hp c.length c (Nat.le_refl _) hc.1 hc.2)
      _ _ ih

/-- The condition under which the strip-markers invariant is provable:
the phrase's sanitized, case-folded form does not occur inside either
highlight-marker token (otherwise a later phrase can match marker text
itself, as the counterexample shows). -/
def PhraseSafe (p : List Char) : Prop :=
  ¬ (sanitize (trimChars p)).map foldKey <:+: oTok.map foldKey ∧
  ¬ (sanitize (trimChars p)).map foldKey <:+: cTok.map foldKey

instance decPhraseSafe (p : List Char) : Decidable (PhraseSafe p) := by
  unfold PhraseSafe
  infer_instance

theorem annotate_wf (qs : List (List Char)) :
    ∀ b s, Wf b s →
      (∀ q ∈ qs, q ≠ [] ∧
        ¬ (sanitize q).map foldKey <:+: oTok.map foldKey ∧
        ¬ (sanitize q).map foldKey <:+: cTok.map foldKey) →
      Wf (annotate b qs) s := by
  induction qs with
  | nil => intro b s hw _; exact hw
  | cons q rest ih =>
    intro b s hw hconds
    obtain ⟨hqne, ho, hcl⟩ := hconds q (List.mem_cons_self q rest)
    have hpne : sanitize q ≠ [] := by
      match q, hqne with
      | c :: l, _ => exact sanitize_ne_nil c l
    have hw' : Wf (annOne (sanitize q) b) s :=
      annOne_wf (sanitize q) hpne
        (sixty_not_mem_map _ (lt_not_mem_sanitize q))
        (sixtytwo_not_mem_map _ (gt_not_mem_sanitize q)) ho hcl b s hw
    exact ih (annOne (sanitize q) b) s hw'
      (fun q' hq' => hconds q' (List.mem_cons_of_mem q hq'))

/-- C1 (amended): for every raw document and every phrase list whose
phrases' sanitized case-folded forms do not occur inside the marker
tokens, stripping all highlight markers from the Annotator's output
yields exactly the sanitized text of the same raw document. -/
theorem strip_annotate_eq_sanitize (raw : List Char) (phrases : List (List Char))
    (h : ∀ p ∈ phrases, PhraseSafe p) :
    stripMarkers (annotateDocument raw phrases) = sanitize raw := by
  apply wf_strip
  apply annotate_wf
  · exact Wf.base _ ⟨lt_not_mem_sanitize raw, gt_not_mem_sanitize raw⟩
  · intro q hq
    simp only [normalizePhrases, List.mem_filter, List.mem_map] at hq
    obtain ⟨⟨p, hp, rfl⟩, hne⟩ := hq
    refine ⟨?_, (h p hp).1, (h p hp).2⟩
    simpa using hne

/-- C1 fails as stated for arbitrary phrase lists: with raw document
`"mark"` and phrases `["mark", "mark"]`, the second phrase matches the
letters inside the markers the first phrase inserted, so stripping the
markers does not return the sanitized text. -/
theorem strip_annotate_counterexample :
    stripMarkers (annotateDocument "mark".data ["mark".data, "mark".data]) ≠
      sanitize "mark".data := by decide

/-- Witness for the amended C1 at a concrete input. -/
theorem strip_annotate_witness :
    stripMarkers (annotateDocument "Led cloud migration for a bank".data
        ["cloud migration".data]) =
      sanitize "Led cloud migration for a bank".data :=
  strip_annotate_eq_sanitize _ _ (by decide)

/-- Modelled from the spec: the Artifact Exporter's whitespace collapse
(missing from the sources).  `inRun` records whether the scan is inside a
whitespace run whose underscore was already emitted. -/
def collapseWsAux : Bool → List Char → List Char
  | _, [] => []
  | inRun, c :: rest =>
    if c.isWhitespace then
      if inRun then collapseWsAux true rest
      else '_' :: collapseWsAux true rest
    else c :: collapseWsAux false rest

/-- Modelled from the spec: the filename stem — the candidate display
name with every maximal run of whitespace collapsed to one underscore. -/
def fileStem (name : List Char) : List Char := collapseWsAux false name

/-- The spec's words for the filename stem, as a relation: the output is
the input with every maximal whitespace run replaced by a single
underscore and all other characters kept. -/
inductive WsCollapsed : List Char → List Char → Prop
  | nil : WsCollapsed [] []
  | keep (c : Char) (l r : List Char) (h : c.isWhitespace = false)
      (hl : WsCollapsed l r) : WsCollapsed (c :: l) (c :: r)
  | run (w l r : List Char) (hw : ∀ c ∈ w, c.isWhitespace = true) (hne : w ≠ [])
      (hnext : ∀ c l', l = c :: l' → c.isWhitespace = false)
      (hl : WsCollapsed l r) : WsCollapsed (w ++ l) ('_' :: r)

theorem collapseWsAux_true_ws (w : List Char) (hw : ∀ c ∈ w, c.isWhitespace = true) :
    ∀ l, collapseWsAux true (w ++ l) = collapseWsAux true l := by
  induction w with
  | nil => intro l; rfl
  | cons c w' ih =>
    intro l
    have hc : c.isWhitespace = true := hw c (List.mem_cons_self c w')
    rw [List.cons_append]
    show collapseWsAux true (c :: (w' ++ l)) = _
    rw [show collapseWsAux true (c :: (w' ++ l)) = collapseWsAux true (w' ++ l) by
      simp [collapseWsAux, hc]]
    exact ih (fun d hd => hw d (List.mem_cons_of_mem c hd)) l

theorem collapseWsAux_true_eq_false (l : List Char)
    (h : ∀ c l', l = c :: l' → c.isWhitespace = false) :
    collapseWsAux true l = collapseWsAux false l := by
  match l with
  | [] => rfl
  | c :: l' =>
    have hc : c.isWhitespace = false := h c l' rfl
    simp [collapseWsAux, hc]

theorem dropWhile_head_false (p : Char → Bool) :
    ∀ (l : List Char) (c : Char) (l' : List Char), l.dropWhile p = c :: l' → p c = false := by
  intro l
  induction l with
  | nil => intro c l' h; simp [List.dropWhile] at h
  | cons a rest ih =>
    intro c l' h
    rw [List.dropWhile_cons] at h
    by_cases ha : p a = true
    · rw [if_pos ha] at h
      exact ih c l' h
    · rw [if_neg ha] at h
      rw [List.cons.injEq] at h
      rw [← h.1]
      exact Bool.not_eq_true _ |>.mp ha

theorem mem_takeWhile_true (p : Char → Bool) :
    ∀ (l : List Char) (c : Char), c ∈ l.takeWhile p → p c = true := by
  intro l
  induction l with
  | nil => intro c h; simp [List.takeWhile] at h
  | cons a rest ih =>
    intro c h
    rw [List.takeWhile_cons] at h
    by_cases ha : p a = true
    · rw [if_pos ha] at h
      rcases List.mem_cons.mp h with rfl | h'
      · exact ha
      · exact ih c h'
    · rw [if_neg ha] at h
      simp at h

theorem wsCollapsed_fileStem : ∀ n name, name.length ≤ n → WsCollapsed name (fileStem name) := by
  intro n
  induction n with
  | zero =>
    intro name h1
    have : name = [] := List.length_eq_zero.mp (Nat.le_zero.mp h1)
    subst this
    exact WsCollapsed.nil
  | succ n ih =>
    intro name h1
    match name with
    | [] => exact WsCollapsed.nil
    | c :: rest =>
      by_cases hc : c.isWhitespace = true
      · have hdec : (c :: rest).takeWhile Char.isWhitespace ++
            (c :: rest).dropWhile Char.isWhitespace = c :: rest :=
          List.takeWhile_append_dropWhile Char.isWhitespace (c :: rest)
        have hwne : (c :: rest).takeWhile Char.isWhitespace ≠ [] := by
          rw [List.takeWhile_cons, if_pos hc]
          simp
        have hww : ∀ d ∈ (c :: rest).takeWhile Char.isWhitespace, d.isWhitespace = true :=
          fun d hd => mem_takeWhile_true Char.isWhitespace (c :: rest) d hd
        have hnext : ∀ d l', (c :: rest).dropWhile Char.isWhitespace = d :: l' →
            d.isWhitespace = false :=
          fun d l' hd => dropWhile_head_false Char.isWhitespace (c :: rest) d l' hd
        have hdlen : ((c :: rest).dropWhile Char.isWhitespace).length ≤ n := by
          rw [List.dropWhile_cons, if_pos hc]
          have hsub : (rest.dropWhile Char.isWhitespace).length ≤ rest.length :=
            List.Sublist.length_le (List.dropWhile_sublist Char.isWhitespace)
          simp only [List.length_cons] at h1
          omega
        have hstem : fileStem (c :: rest) =
            '_' :: fileStem ((c :: rest).dropWhile Char.isWhitespace) := by
          unfold fileStem
          conv_lhs => rw [← hdec]
          rw [List.takeWhile_cons, if_pos hc, List.cons_append]
          show collapseWsAux false (c :: (rest.takeWhile Char.isWhitespace ++
            (c :: rest).dropWhile Char.isWhitespace)) = _
          rw [show collapseWsAux false (c :: (rest.takeWhile Char.isWhitespace ++
              (c :: rest).dropWhile Char.isWhitespace)) =
            '_' :: collapseWsAux true (rest.takeWhile Char.isWhitespace ++
              (c :: rest).dropWhile Char.isWhitespace) by simp [collapseWsAux, hc]]
          rw [collapseWsAux_true_ws (rest.takeWhile Char.isWhitespace)
            (fun d hd => mem_takeWhile_true Char.isWhitespace rest d hd) _]
          rw [collapseWsAux_true_eq_false _ hnext]
        rw [hstem]
        have := WsCollapsed.run ((c :: rest).takeWhile Char.isWhitespace)
          ((c :: rest).dropWhile Char.isWhitespace)
          (fileStem ((c :: rest).dropWhile Char.isWhitespace)) hww hwne hnext
          (ih _ hdlen)
        rw [hdec] at this
        exact this
      · have hcf : c.isWhitespace = false := Bool.not_eq_true _ |>.mp hc
        have hstem : fileStem (c :: rest) = c :: fileStem rest := by
          simp [fileStem, collapseWsAux, hcf]
        rw [hstem]
        exact WsCollapsed.keep c rest (fileStem rest) hcf (ih rest (by simpa using h1))

/-- C7: the exported artifact's filename stem is the display name with
every maximal whitespace run collapsed to a single underscore (stated as
the spec's run-collapsing relation), and in particular the display name
`"Sarah  Jenkins"` yields the stem `"Sarah_Jenkins"`. -/
theorem fileStem_collapses_ws :
    (∀ name : List Char, WsCollapsed name (fileStem name)) ∧
      fileStem "Sarah  Jenkins".data = "Sarah_Jenkins".data := by
  constructor
  · intro name
    exact wsCollapsed_fileStem name.length name (Nat.le_refl _)
  · decide

/-- Outcome of `response.json()` on an error body: either a parsed JSON
object, of which only the optional string field `detail` matters to the
handler, or a parse failure. -/
inductive BodyParse
  | parsed (detail : Option String)
  | malformed

/-- `response.json().catch(() => ({}))` from `src/unnamed/part_000` and
`part_001`: a failed parse falls back to the empty object, which carries
no `detail` field. -/
def parsedOrEmpty : BodyParse → Option String
  | BodyParse.parsed d => d
  | BodyParse.malformed => none

/-- The observable part of a `fetch` response: `ok`, `status`, and the
parse outcome of its body. -/
structure HttpResponse where
  ok : Bool
  status : Nat
  body : BodyParse

/-- The thrown message `error.detail || "Request failed: <status>"` from
`src/unnamed/part_000` and `part_001`.  JavaScript truthiness makes an
empty-string `detail` fall through to the generic message. -/
def raisedMessage (status : Nat) (bp : BodyParse) : String :=
  match parsedOrEmpty bp with
  | some d => if d = "" then "Request failed: " ++ toString status else d
  | none => "Request failed: " ++ toString status

/-- `getCandidateResume` from `src/unnamed/part_000`: a non-ok response
throws an error with `raisedMessage`; an ok response resolves to its
body. -/
def getCandidateResume (r : HttpResponse) : Except String BodyParse :=
  if r.ok then Except.ok r.body else Except.error (raisedMessage r.status r.body)

/-- `searchCandidates` from `src/unnamed/part_000` and `part_001`: the
non-ok handling is identical to `getCandidateResume`. -/
def searchCandidates (r : HttpResponse) : Except String BodyParse :=
  if r.ok then Except.ok r.body else Except.error (raisedMessage r.status r.body)

/-- C3 (amended): every non-success resume or search fetch raises an
error; when the parsed body supplies a non-empty `detail` string, the
error message is exactly that string, otherwise (no `detail`, an empty
`detail`, or an unparseable body) it is the generic status-coded
message. -/
theorem fetch_error_message (r : HttpResponse) (hok : r.ok = false) :
    (∀ d : String, r.body = BodyParse.parsed (some d) → d ≠ "" →
      getCandidateResume r = Except.error d ∧ searchCandidates r = Except.error d) ∧
    ((r.body = BodyParse.parsed none ∨ r.body = BodyParse.parsed (some "") ∨
        r.body = BodyParse.malformed) →
      getCandidateResume r = Except.error ("Request failed: " ++ toString r.status) ∧
      searchCandidates r = Except.error ("Request failed: " ++ toString r.status)) := by
  constructor
  · intro d hd hne
    constructor <;>
      simp [getCandidateResume, searchCandidates, hok, raisedMessage, parsedOrEmpty, hd, hne]
  · intro hcase
    rcases hcase with hd | hd | hd <;> constructor <;>
      simp [getCandidateResume, searchCandidates, hok, raisedMessage, parsedOrEmpty, hd]

/-- C3 fails as stated: HTTP 404 with a body that does supply the
`detail` field, but with the empty string as its value, raises the
generic status-coded message, not the (empty) server-supplied one. -/
theorem fetch_error_message_counterexample :
    getCandidateResume ⟨false, 404, BodyParse.parsed (some "")⟩ =
        Except.error "Request failed: 404" ∧
      "Request failed: 404" ≠ "" := by
  constructor
  · rfl
  · decide

/-- Witness for the amended C3: HTTP 404 with body detail
`"not found"` raises exactly `"not found"`. -/
theorem fetch_error_message_witness :
    getCandidateResume ⟨false, 404, BodyParse.parsed (some "not found")⟩ =
      Except.error "not found" :=
  ((fetch_error_message ⟨false, 404, BodyParse.parsed (some "not found")⟩ rfl).1
    "not found" rfl (by decide)).1

/-- C4: a non-success response whose body cannot be parsed is handled by
substituting the empty fallback object — no parse error escalates, and
the raised error is the generic `Request failed: <status>` message. -/
theorem malformed_body_generic (r : HttpResponse) (hok : r.ok = false)
    (hm : r.body = BodyParse.malformed) :
    getCandidateResume r = Except.error ("Request failed: " ++ toString r.status) ∧
    searchCandidates r = Except.error ("Request failed: " ++ toString r.status) := by
  constructor <;>
    simp [getCandidateResume, searchCandidates, hok, raisedMessage, parsedOrEmpty, hm]

/-- Witness for C4 at a concrete non-success malformed response. -/
theorem malformed_body_generic_witness :
    getCandidateResume ⟨false, 500, BodyParse.malformed⟩ =
        Except.error ("Request failed: " ++ toString 500) ∧
      searchCandidates ⟨false, 500, BodyParse.malformed⟩ =
        Except.error ("Request failed: " ++ toString 500) :=
  malformed_body_generic ⟨false, 500, BodyParse.malformed⟩ rfl rfl

/-- The outcome of one submit of the search form: either the blocking
destructive toast (no request issued, results unchanged), or a request
with the query and the selected skills. -/
inductive SubmitAction
  | blocked
  | submit (query : List Char) (skills : List (List Char))
  deriving DecidableEq

/-- The query built by `handleSubmit` (src/unnamed/part_002 line 61 and
src/frontend/src/components/CandidateCard.tsx line 218): the trimmed
role description when it is long enough, otherwise a fixed sentence
listing the selected skills joined with `", "`. -/
def joinSep (sep : List Char) : List (List Char) → List Char
  | [] => []
  | [x] => x
  | x :: y :: rest => x ++ sep ++ joinSep sep (y :: rest)

def buildQuery (skills : List (List Char)) (roleDescription : List Char) : List Char :=
  if 10 ≤ (trimChars roleDescription).length then trimChars roleDescription
  else "Looking for a consultant with the following skills: ".data ++ joinSep ", ".data skills

/-- `handleSubmit` from `src/unnamed/part_002` (and the identical copy in
`src/frontend/src/components/CandidateCard.tsx`): with no skill selected
and a trimmed role description under 10 characters it shows the
destructive toast and returns; otherwise it issues the search request. -/
def handleSubmit (skills : List (List Char)) (roleDescription : List Char) : SubmitAction :=
  if skills.length = 0 ∧ (trimChars roleDescription).length < 10 then SubmitAction.blocked
  else SubmitAction.submit (buildQuery skills roleDescription) skills

/-- C8: the form submits a request iff at least one skill is selected or
the trimmed role description has at least 10 characters; otherwise the
submit is blocked (destructive toast, no request). -/
theorem handleSubmit_spec (skills : List (List Char)) (desc : List Char) :
    ((∃ q s, handleSubmit skills desc = SubmitAction.submit q s) ↔
      (skills ≠ [] ∨ 10 ≤ (trimChars desc).length)) ∧
    (handleSubmit skills desc = SubmitAction.blocked ↔
      (skills = [] ∧ (trimChars desc).length < 10)) := by
  by_cases h : skills.length = 0 ∧ (trimChars desc).length < 10
  · have hb : handleSubmit skills desc = SubmitAction.blocked := by
      unfold handleSubmit
      rw [if_pos h]
    have hsk : skills = [] := List.length_eq_zero.mp h.1
    have h2 := h.2
    constructor
    · constructor
      · intro ⟨q, s, hqs⟩
        rw [hb] at hqs
        exact absurd hqs (by simp)
      · intro hor
        rcases hor with hne | hlen
        · exact absurd hsk hne
        · exact absurd hlen (by omega)
    · exact ⟨fun _ => ⟨hsk, h2⟩, fun _ => hb⟩
  · have hb : handleSubmit skills desc =
        SubmitAction.submit (buildQuery skills desc) skills := by
      unfold handleSubmit
      rw [if_neg h]
    constructor
    · constructor
      · intro _
        by_cases hsk : skills = []
        · refine Or.inr ?_
          rw [hsk] at h
          simp only [List.length_nil, true_and, not_lt] at h
          exact h
        · exact Or.inl hsk
      · intro _
        exact ⟨buildQuery skills desc, skills, hb⟩
    · constructor
      · intro hblk
        rw [hb] at hblk
        exact absurd hblk (by simp)
      · intro hand
        exact absurd ⟨List.length_eq_zero.mpr hand.1, hand.2⟩ h

/-- C9: when a request is issued, the query is the trimmed role
description verbatim if its length is at least 10, and otherwise exactly
the fixed sentence followed by the selected skills joined with `", "`. -/
theorem submitted_query_spec (skills : List (List Char)) (desc : List Char)
    (q : List Char) (s : List (List Char))
    (h : handleSubmit skills desc = SubmitAction.submit q s) :
    (10 ≤ (trimChars desc).length ∧ q = trimChars desc) ∨
    ((trimChars desc).length < 10 ∧
      q = "Looking for a consultant with the following skills: ".data ++
        joinSep ", ".data skills) := by
  unfold handleSubmit at h
  by_cases hb : skills.length = 0 ∧ (trimChars desc).length < 10
  · rw [if_pos hb] at h
    exact absurd h (by simp)
  · rw [if_neg hb] at h
    simp only [SubmitAction.submit.injEq] at h
    by_cases hlen : 10 ≤ (trimChars desc).length
    · refine Or.inl ⟨hlen, ?_⟩
      rw [← h.1]
      simp [buildQuery, hlen]
    · refine Or.inr ⟨by omega, ?_⟩
      rw [← h.1]
      simp [buildQuery, hlen]

/-- Witness for C9 at a concrete long role description. -/
theorem submitted_query_spec_witness :
    (10 ≤ (trimChars "Need a cloud architect".data).length ∧
      "Need a cloud architect".data = trimChars "Need a cloud architect".data) ∨
    ((trimChars "Need a cloud architect".data).length < 10 ∧
      "Need a cloud architect".data =
        "Looking for a consultant with the following skills: ".data ++
          joinSep ", ".data []) :=
  submitted_query_spec [] "Need a cloud architect".data
    "Need a cloud architect".data [] (by decide)

/-- Events observable by the ContactDialog download button: a user click
and the expiry of the 2-second timer that `handleDownload` schedules. -/
inductive DialogEvent | click | timerFire

/-- The ContactDialog's export-relevant state: the `downloading` flag of
`src/unnamed/part_003`, plus counters of started and finished exports
used to state the at-most-one-in-progress property. -/
structure DialogState where
  downloading : Bool
  started : Nat
  finished : Nat

def dialogInit : DialogState := ⟨false, 0, 0⟩

/-- Translated from `ContactDialog` (src/unnamed/part_003): the download
button carries `disabled={downloading}`, so a click while `downloading`
is true does nothing; otherwise `handleDownload` sets the flag and starts
an export; the scheduled timer clears the flag, finishing the export. -/
def dialogStep (s : DialogState) : DialogEvent → DialogState
  | DialogEvent.click =>
    if s.downloading then s
    else { downloading := true, started := s.started + 1, finished := s.finished }
  | DialogEvent.timerFire =>
    if s.downloading then { downloading := false, started := s.started, finished := s.finished + 1 }
    else s

def runDialog (evs : List DialogEvent) : DialogState := evs.foldl dialogStep dialogInit

theorem dialog_inv (evs : List DialogEvent) :
    ∀ s : DialogState, s.started = s.finished + (if s.downloading then 1 else 0) →
      (evs.foldl dialogStep s).started =
        (evs.foldl dialogStep s).finished +
          (if (evs.foldl dialogStep s).downloading then 1 else 0) := by
  induction evs with
  | nil => intro s h; exact h
  | cons e rest ih =>
    intro s h
    rw [List.foldl_cons]
    apply ih
    cases e with
    | click =>
      by_cases hd : s.downloading
      · simpa [dialogStep, hd] using h
      · simp only [dialogStep, if_neg hd]
        simp only [hd, if_neg] at h
        simp [h]
    | timerFire =>
      by_cases hd : s.downloading
      · simp only [dialogStep, if_pos hd]
        simp only [hd, if_pos] at h
        simp
        omega
      · simpa [dialogStep, hd] using h

/-- C10: along every event sequence, at most one export is in progress
at a time (started minus finished never exceeds one), because a click is
a no-op while the `downloading` flag disables the control. -/
theorem at_most_one_export (evs : List DialogEvent) :
    (runDialog evs).started - (runDialog evs).finished ≤ 1 ∧
    (∀ s : DialogState, s.downloading = true → dialogStep s DialogEvent.click = s) := by
  constructor
  · have h := dialog_inv evs dialogInit rfl
    by_cases hd : (runDialog evs).downloading
    · rw [show (evs.foldl dialogStep dialogInit) = runDialog evs from rfl] at h
      rw [if_pos hd] at h
      omega
    · rw [show (evs.foldl dialogStep dialogInit) = runDialog evs from rfl] at h
      rw [if_neg hd] at h
      omega
  · intro s hs
    simp [dialogStep, hs]

/-- Witness for C10: a double click starts only one export, and a click
in a downloading state is a no-op. -/
theorem at_most_one_export_witness :
    (runDialog [DialogEvent.click, DialogEvent.click]).started -
        (runDialog [DialogEvent.click, DialogEvent.click]).finished ≤ 1 ∧
      dialogStep ⟨true, 1, 0⟩ DialogEvent.click = ⟨true, 1, 0⟩ :=
  ⟨(at_most_one_export [DialogEvent.click, DialogEvent.click]).1,
    (at_most_one_export []).2 ⟨true, 1, 0⟩ rfl⟩

end Matchpoint
